import Mathlib

/-!
# DFPWM codec: shallow embedding and verification

The repository consists of ambient type declarations; the DFPWM
(Dynamic Filter Pulse Width Modulation) codec they declare
(`make_encoder`, `encode`, `make_decoder`, `decode` in the
`cc.audio.dfpwm` module) is implemented in the external host runtime.
The definitions below model that codec from the specification: a
predictor state (`charge`, `strength`, `previousBit`) shared by encoder
and decoder, a per-bit predictor update, the encoder's bit decision,
and LSB-first bit packing with zero padding of a final partial byte.

Bytes are modelled as natural numbers (each output byte is `< 256`),
byte strings as `List Nat`, and PCM amplitude sequences as `List Int`.
-/

/-- Modelled from the spec: the predictor state carried across streaming
calls (the repository only declares the codec's API; the algorithm lives
in the external runtime).  Fields per the spec's data model: `charge` is
the running reconstructed-amplitude estimate, `strength` the adaptive
step-size control, `previousBit` the last processed bit. -/
structure DfpwmState where
  charge : Int
  strength : Int
  previousBit : Bool
deriving DecidableEq

/-- Modelled from the spec: charge is kept inside the legal sample range
`[-128, 127]` by clamping. -/
def clampCharge (x : Int) : Int := max (-128) (min 127 x)

/-- Modelled from the spec: the extreme a bit steers `charge` toward
(up toward `127` if the bit is set, down toward `-128` otherwise). -/
def bitTarget (b : Bool) : Int := if b then 127 else -128

/-- Modelled from the spec: the per-bit predictor update shared by the
encoder and the decoder (the decoder's per-bit algorithm is the mirror
of the encoder's steps 3-5, driven by the decoded bit).  `charge` moves
toward the bit's target by a `strength`-proportional step and is
clamped; `strength` increases by one (up to the ceiling `255`) when the
bit extends a run, and decreases by one (down to the floor `0`) when it
flips; `previousBit` records the bit. -/
def predictorStep (s : DfpwmState) (b : Bool) : DfpwmState :=
  { charge := clampCharge (s.charge + s.strength * (bitTarget b - s.charge) / 256)
    strength := if b = s.previousBit then min 255 (s.strength + 1) else max 0 (s.strength - 1)
    previousBit := b }

/-- Modelled from the spec: the encoder's bit decision, `target > charge`
with a tie resolved to the previous bit. -/
def encodeBit (s : DfpwmState) (sample : Int) : Bool :=
  if s.charge < sample then true
  else if sample < s.charge then false
  else s.previousBit

/-- Modelled from the spec: run the encoder's per-sample algorithm over a
sample list, returning the emitted bits in temporal order together with
the updated predictor state. -/
def encoderBits : DfpwmState → List Int → List Bool × DfpwmState
  | s, [] => ([], s)
  | s, x :: xs =>
    let b := encodeBit s x
    let r := encoderBits (predictorStep s b) xs
    (b :: r.1, r.2)

/-- The encoder's internal state trajectory: the predictor state after
each processed sample, in order. -/
def encoderStates : DfpwmState → List Int → List DfpwmState
  | _, [] => []
  | s, x :: xs =>
    let s' := predictorStep s (encodeBit s x)
    s' :: encoderStates s' xs

/-- The encoder's internal `charge` trajectory: the value of `charge`
after each processed sample. -/
def encoderCharges (s : DfpwmState) (xs : List Int) : List Int :=
  (encoderStates s xs).map DfpwmState.charge

/-- Modelled from the spec: assemble a byte from up to eight bits,
least-significant bit first; missing high positions are zero. -/
def bitsToByte : List Bool → Nat
  | [] => 0
  | b :: rest => (if b then 1 else 0) + 2 * bitsToByte rest

/-- Modelled from the spec: the eight bits of a byte, least-significant
bit first. -/
def byteToBits (b : Nat) : List Bool :=
  [b.testBit 0, b.testBit 1, b.testBit 2, b.testBit 3,
   b.testBit 4, b.testBit 5, b.testBit 6, b.testBit 7]

/-- Modelled from the spec: pack a bit sequence into bytes, eight bits
per byte LSB-first; a final partial byte is padded with zero bits in the
unused high positions. -/
def packBits : List Bool → List Nat
  | [] => []
  | b0 :: b1 :: b2 :: b3 :: b4 :: b5 :: b6 :: b7 :: rest =>
    bitsToByte [b0, b1, b2, b3, b4, b5, b6, b7] :: packBits rest
  | bits => [bitsToByte bits]

/-- Modelled from the spec: the bit stream of a byte string, extracting
the bits of each byte LSB-first. -/
def unpackBytes (data : List Nat) : List Bool :=
  (data.map byteToBits).flatten

/-- Modelled from the spec: a fresh encoder state at the codec's defined
starting values (`charge = 0`, `strength` at its fixed initial constant
`0`, `previousBit = false`). -/
def make_encoder : DfpwmState := ⟨0, 0, false⟩

/-- Modelled from the spec: a fresh decoder state; the decoder state
mirrors the encoder state exactly. -/
def make_decoder : DfpwmState := ⟨0, 0, false⟩

/-- Modelled from the spec: one streaming encoder call, turning a
sample list into a packed byte string and the persisted state. -/
def encoder_process (s : DfpwmState) (pcm : List Int) : List Nat × DfpwmState :=
  let r := encoderBits s pcm
  (packBits r.1, r.2)

/-- Modelled from the spec: run the decoder's per-bit algorithm over a
bit list, emitting the reconstructed `charge` after each bit, together
with the updated predictor state. -/
def decoderBits : DfpwmState → List Bool → List Int × DfpwmState
  | s, [] => ([], s)
  | s, b :: bs =>
    let s' := predictorStep s b
    let r := decoderBits s' bs
    (s'.charge :: r.1, r.2)

/-- The decoder's internal state trajectory: the predictor state after
each processed bit, in order. -/
def decoderStates : DfpwmState → List Bool → List DfpwmState
  | _, [] => []
  | s, b :: bs =>
    let s' := predictorStep s b
    s' :: decoderStates s' bs

/-- Modelled from the spec: one streaming decoder call, turning a byte
string into one reconstructed sample per input bit (LSB-first per byte)
and the persisted state. -/
def decoder_process (s : DfpwmState) (data : List Nat) : List Int × DfpwmState :=
  decoderBits s (unpackBytes data)

/-- Modelled from the spec: one-shot convenience encoder, internally
allocating a fresh state, running the full input, and discarding the
state. -/
def encode (input : List Int) : List Nat := (encoder_process make_encoder input).1

/-- Modelled from the spec: one-shot convenience decoder, internally
allocating a fresh state, running the full input, and discarding the
state. -/
def decode (input : List Nat) : List Int := (decoder_process make_decoder input).1

/-- An alternating maximal-amplitude sample run: `n` pairs `+127, -128`. -/
def altPairs : Nat → List Int
  | 0 => []
  | n + 1 => 127 :: -128 :: altPairs n

/-! ## Structural lemmas about the bit-level transducers -/

theorem encoderBits_length (xs : List Int) (s : DfpwmState) :
    (encoderBits s xs).1.length = xs.length := by
  induction xs generalizing s with
  | nil => rfl
  | cons x xs ih => simp [encoderBits, ih]

theorem encoderBits_append (xs ys : List Int) (s : DfpwmState) :
    encoderBits s (xs ++ ys) =
      ((encoderBits s xs).1 ++ (encoderBits (encoderBits s xs).2 ys).1,
       (encoderBits (encoderBits s xs).2 ys).2) := by
  induction xs generalizing s with
  | nil => simp [encoderBits]
  | cons x xs ih => simp [encoderBits, ih]

theorem encoderStates_append (xs ys : List Int) (s : DfpwmState) :
    encoderStates s (xs ++ ys) =
      encoderStates s xs ++ encoderStates (encoderBits s xs).2 ys := by
  induction xs generalizing s with
  | nil => simp [encoderStates, encoderBits]
  | cons x xs ih => simp [encoderStates, encoderBits, ih]

theorem encoderStates_length (xs : List Int) (s : DfpwmState) :
    (encoderStates s xs).length = xs.length := by
  induction xs generalizing s with
  | nil => rfl
  | cons x xs ih => simp [encoderStates, ih]

theorem decoderBits_length (bs : List Bool) (s : DfpwmState) :
    (decoderBits s bs).1.length = bs.length := by
  induction bs generalizing s with
  | nil => rfl
  | cons b bs ih => simp [decoderBits, ih]

theorem decoderBits_append (as bs : List Bool) (s : DfpwmState) :
    decoderBits s (as ++ bs) =
      ((decoderBits s as).1 ++ (decoderBits (decoderBits s as).2 bs).1,
       (decoderBits (decoderBits s as).2 bs).2) := by
  induction as generalizing s with
  | nil => simp [decoderBits]
  | cons a as ih => simp [decoderBits, ih]

theorem decoderBits_fst_eq_map_charge (bs : List Bool) (s : DfpwmState) :
    (decoderBits s bs).1 = (decoderStates s bs).map DfpwmState.charge := by
  induction bs generalizing s with
  | nil => rfl
  | cons b bs ih => simp [decoderBits, decoderStates, ih]

theorem decoderStates_of_encoderBits (xs : List Int) (s : DfpwmState) :
    decoderStates s (encoderBits s xs).1 = encoderStates s xs := by
  induction xs generalizing s with
  | nil => rfl
  | cons x xs ih => simp [encoderBits, encoderStates, decoderStates, ih]

theorem decoderBits_of_encoderBits (xs : List Int) (s : DfpwmState) :
    decoderBits s (encoderBits s xs).1 = (encoderCharges s xs, (encoderBits s xs).2) := by
  induction xs generalizing s with
  | nil => rfl
  | cons x xs ih => simp [encoderBits, encoderCharges, encoderStates, decoderBits, ih]

/-! ## Bit packing and unpacking -/

theorem packBits_nil : packBits [] = [] := rfl

theorem packBits_of_ne_nil (bits : List Bool) (h : bits ≠ []) :
    packBits bits = bitsToByte (bits.take 8) :: packBits (bits.drop 8) := by
  rcases bits with _ | ⟨b0, l⟩
  · exact absurd rfl h
  rcases l with _ | ⟨b1, l⟩
  · rfl
  rcases l with _ | ⟨b2, l⟩
  · rfl
  rcases l with _ | ⟨b3, l⟩
  · rfl
  rcases l with _ | ⟨b4, l⟩
  · rfl
  rcases l with _ | ⟨b5, l⟩
  · rfl
  rcases l with _ | ⟨b6, l⟩
  · rfl
  rcases l with _ | ⟨b7, l⟩
  · rfl
  · rfl

/-- Induction along the eight-bit grouping of `packBits`: a property
holds of every bit list once it holds of `[]` and is preserved from
`bits.drop 8` to any nonempty `bits`. -/
theorem packBits_induction {motive : List Bool → Prop} (h1 : motive [])
    (h2 : ∀ bits, bits ≠ [] → motive (bits.drop 8) → motive bits) :
    ∀ bits, motive bits := by
  have key : ∀ (n : Nat) (bits : List Bool), bits.length ≤ n → motive bits := by
    intro n
    induction n with
    | zero =>
      intro bits hb
      have : bits = [] := by
        cases bits with
        | nil => rfl
        | cons a l => simp at hb
      rw [this]
      exact h1
    | succ n ih =>
      intro bits hb
      by_cases hne : bits = []
      · rw [hne]; exact h1
      · have hp : 0 < bits.length := List.length_pos.mpr hne
        apply h2 bits hne
        apply ih
        simp only [List.length_drop]
        omega
  exact fun bits => key bits.length bits le_rfl

theorem packBits_length (bits : List Bool) :
    (packBits bits).length = (bits.length + 7) / 8 := by
  induction bits using packBits_induction with
  | h1 => simp [packBits_nil]
  | h2 bits h ih =>
    have hp : 0 < bits.length := List.length_pos.mpr h
    rw [packBits_of_ne_nil bits h]
    simp only [List.length_cons, ih, List.length_drop]
    omega

theorem unpackBytes_nil : unpackBytes [] = [] := rfl

theorem unpackBytes_cons (b : Nat) (data : List Nat) :
    unpackBytes (b :: data) = byteToBits b ++ unpackBytes data := by
  simp [unpackBytes]

theorem unpackBytes_append (d1 d2 : List Nat) :
    unpackBytes (d1 ++ d2) = unpackBytes d1 ++ unpackBytes d2 := by
  simp [unpackBytes]

theorem byteToBits_length (b : Nat) : (byteToBits b).length = 8 := rfl

theorem unpackBytes_length (data : List Nat) :
    (unpackBytes data).length = 8 * data.length := by
  induction data with
  | nil => rfl
  | cons b data ih =>
    rw [unpackBytes_cons]
    simp [byteToBits_length, ih]
    ring

theorem bitsToByte_lt (l : List Bool) : bitsToByte l < 2 ^ l.length := by
  induction l with
  | nil => simp [bitsToByte]
  | cons b rest ih =>
    simp only [bitsToByte, List.length_cons, pow_succ]
    cases b <;> simp <;> omega

/-! ## Arithmetic facts about the predictor step -/

theorem ediv_step_le (c t s : Int) (hs0 : 0 ≤ s) (hs : s ≤ 255) (h : c ≤ t) :
    c ≤ c + s * (t - c) / 256 ∧ c + s * (t - c) / 256 ≤ t := by
  have hd : 0 ≤ t - c := by omega
  have h1 : 0 ≤ s * (t - c) / 256 :=
    Int.ediv_nonneg (mul_nonneg hs0 hd) (by norm_num)
  have h2 : s * (t - c) ≤ 256 * (t - c) :=
    mul_le_mul_of_nonneg_right (by omega) hd
  have h3 : s * (t - c) / 256 ≤ 256 * (t - c) / 256 :=
    Int.ediv_le_ediv (by norm_num) h2
  have h4 : (256 : Int) * (t - c) / 256 = t - c :=
    Int.mul_ediv_cancel_left (t - c) (by norm_num)
  omega

theorem ediv_step_ge (c t s : Int) (hs0 : 0 ≤ s) (hs : s ≤ 255) (h : t ≤ c) :
    t ≤ c + s * (t - c) / 256 ∧ c + s * (t - c) / 256 ≤ c := by
  have hd : t - c ≤ 0 := by omega
  have h1 : s * (t - c) ≤ 0 := by
    have := mul_le_mul_of_nonneg_left hd hs0
    simpa using this
  have h2 : s * (t - c) / 256 ≤ 0 := by
    have := Int.ediv_le_ediv (c := 256) (by norm_num) h1
    simpa [Int.zero_ediv] using this
  have h3 : 256 * (t - c) ≤ s * (t - c) :=
    mul_le_mul_of_nonpos_right (by omega) hd
  have h4 : 256 * (t - c) / 256 ≤ s * (t - c) / 256 :=
    Int.ediv_le_ediv (by norm_num) h3
  have h5 : (256 : Int) * (t - c) / 256 = t - c :=
    Int.mul_ediv_cancel_left (t - c) (by norm_num)
  omega

theorem clampCharge_range (x : Int) : -128 ≤ clampCharge x ∧ clampCharge x ≤ 127 := by
  simp only [clampCharge]
  omega

theorem clampCharge_of_range (x : Int) (h1 : -128 ≤ x) (h2 : x ≤ 127) :
    clampCharge x = x := by
  simp only [clampCharge]
  omega

theorem bitTarget_range (b : Bool) : -128 ≤ bitTarget b ∧ bitTarget b ≤ 127 := by
  cases b <;> simp [bitTarget]

/-- The charge update never overshoots: with `strength` in `[0, 255]` and
`charge` in the legal range, the new charge lies between the old charge
and the bit's target, inclusive. -/
theorem predictorStep_charge_between (s : DfpwmState) (b : Bool)
    (hc1 : -128 ≤ s.charge) (hc2 : s.charge ≤ 127)
    (hs1 : 0 ≤ s.strength) (hs2 : s.strength ≤ 255) :
    min s.charge (bitTarget b) ≤ (predictorStep s b).charge
      ∧ (predictorStep s b).charge ≤ max s.charge (bitTarget b) := by
  have ht := bitTarget_range b
  rcases le_total s.charge (bitTarget b) with h | h
  · have := ediv_step_le s.charge (bitTarget b) s.strength hs1 hs2 h
    have hcl := clampCharge_of_range (s.charge + s.strength * (bitTarget b - s.charge) / 256)
      (by omega) (by omega)
    simp only [predictorStep, hcl]
    omega
  · have := ediv_step_ge s.charge (bitTarget b) s.strength hs1 hs2 h
    have hcl := clampCharge_of_range (s.charge + s.strength * (bitTarget b - s.charge) / 256)
      (by omega) (by omega)
    simp only [predictorStep, hcl]
    omega

theorem predictorStep_charge_range (s : DfpwmState) (b : Bool) :
    -128 ≤ (predictorStep s b).charge ∧ (predictorStep s b).charge ≤ 127 := by
  simp only [predictorStep]
  exact clampCharge_range _

theorem predictorStep_strength_range (s : DfpwmState) (b : Bool)
    (h1 : 0 ≤ s.strength) (h2 : s.strength ≤ 255) :
    0 ≤ (predictorStep s b).strength ∧ (predictorStep s b).strength ≤ 255 := by
  simp only [predictorStep]
  split <;> omega

/-! ## Byte round-trip facts -/

theorem byteToBits_bitsToByte (l : List Bool) (h : l.length ≤ 8) :
    byteToBits (bitsToByte l) = l ++ List.replicate (8 - l.length) false := by
  rcases l with _ | ⟨b0, l⟩
  · decide
  rcases l with _ | ⟨b1, l⟩
  · revert b0; decide
  rcases l with _ | ⟨b2, l⟩
  · revert b0 b1; decide
  rcases l with _ | ⟨b3, l⟩
  · revert b0 b1 b2; decide
  rcases l with _ | ⟨b4, l⟩
  · revert b0 b1 b2 b3; decide
  rcases l with _ | ⟨b5, l⟩
  · revert b0 b1 b2 b3 b4; decide
  rcases l with _ | ⟨b6, l⟩
  · revert b0 b1 b2 b3 b4 b5; decide
  rcases l with _ | ⟨b7, l⟩
  · revert b0 b1 b2 b3 b4 b5 b6; decide
  rcases l with _ | ⟨b8, l⟩
  · revert b0 b1 b2 b3 b4 b5 b6 b7; decide
  · simp at h

theorem getD_append_replicate_false (l : List Bool) (m k : Nat) :
    (l ++ List.replicate m false).getD k false = l.getD k false := by
  rw [List.getD_eq_getElem?_getD, List.getD_eq_getElem?_getD, List.getElem?_append]
  split
  · rfl
  · have hl : l[k]? = none := List.getElem?_eq_none (by omega)
    rw [hl, List.getElem?_replicate]
    split <;> rfl

theorem getD_byteToBits (b : Nat) (k : Nat) (hk : k < 8) :
    (byteToBits b).getD k false = b.testBit k := by
  interval_cases k <;> rfl

theorem testBit_bitsToByte (l : List Bool) (h8 : l.length ≤ 8) (k : Nat) (hk : k < 8) :
    (bitsToByte l).testBit k = l.getD k false := by
  have hb := byteToBits_bitsToByte l h8
  have h2 := getD_byteToBits (bitsToByte l) k hk
  rw [hb, getD_append_replicate_false] at h2
  exact h2.symm

theorem unpackBytes_packBits (bits : List Bool) :
    unpackBytes (packBits bits) = bits ++ List.replicate ((8 - bits.length % 8) % 8) false := by
  induction bits using packBits_induction with
  | h1 => simp [packBits_nil, unpackBytes_nil]
  | h2 bits h ih =>
    have hp : 0 < bits.length := List.length_pos.mpr h
    rw [packBits_of_ne_nil bits h, unpackBytes_cons, ih]
    by_cases h8 : bits.length ≤ 8
    · have hd : bits.drop 8 = [] := List.drop_eq_nil_of_le h8
      have ht : bits.take 8 = bits := List.take_of_length_le h8
      rw [ht, hd, byteToBits_bitsToByte bits h8]
      simp only [packBits_nil, unpackBytes_nil, List.length_nil, List.append_assoc,
        List.nil_append]
      have : (8 - bits.length % 8) % 8 = 8 - bits.length := by omega
      rw [this]
      norm_num
    · have h9 : 8 ≤ bits.length := by omega
      have ht8 : (bits.take 8).length = 8 := by
        simp [List.length_take]
        omega
      rw [byteToBits_bitsToByte (bits.take 8) (by omega), ht8]
      simp only [Nat.sub_self, List.replicate_zero, List.append_nil, List.length_drop]
      rw [← List.append_assoc, List.take_append_drop]
      have : (8 - (bits.length - 8) % 8) % 8 = (8 - bits.length % 8) % 8 := by omega
      rw [this]

theorem packBits_append (a b : List Bool) (h : a.length % 8 = 0) :
    packBits (a ++ b) = packBits a ++ packBits b := by
  revert h
  induction a using packBits_induction with
  | h1 =>
    intro h
    simp [packBits_nil]
  | h2 a ha ih =>
    intro h
    have hp : 0 < a.length := List.length_pos.mpr ha
    have h8 : 8 ≤ a.length := by omega
    by_cases hb : b = []
    · simp [hb, packBits_nil]
    · have hab : a ++ b ≠ [] := by simp [ha]
      rw [packBits_of_ne_nil (a ++ b) hab, packBits_of_ne_nil a ha,
        List.take_append_of_le_length h8, List.drop_append_of_le_length h8]
      rw [ih (by simp only [List.length_drop]; omega)]
      simp

theorem packBits_getD (bits : List Bool) (j : Nat) :
    (packBits bits).getD j 0 = bitsToByte ((bits.drop (8 * j)).take 8) := by
  induction j generalizing bits with
  | zero =>
    by_cases h : bits = []
    · simp [h, packBits_nil, bitsToByte]
    · rw [packBits_of_ne_nil bits h]
      simp [List.getD_cons_zero]
  | succ j ih =>
    by_cases h : bits = []
    · simp [h, packBits_nil, bitsToByte]
    · rw [packBits_of_ne_nil bits h, List.getD_cons_succ, ih]
      rw [List.drop_drop]
      have : 8 + 8 * j = 8 * (j + 1) := by ring
      rw [this]

theorem getLast?_cons_of_ne_nil {α : Type} (a : α) (l : List α) (h : l ≠ []) :
    (a :: l).getLast? = l.getLast? := by
  cases l with
  | nil => exact absurd rfl h
  | cons b m => exact List.getLast?_cons_cons

theorem packBits_getLast? (bits : List Bool) (h : bits ≠ []) (hr : bits.length % 8 ≠ 0) :
    ∃ B, (packBits bits).getLast? = some B ∧ B < 2 ^ (bits.length % 8) := by
  revert h hr
  induction bits using packBits_induction with
  | h1 =>
    intro h hr
    exact absurd rfl h
  | h2 bits hne ih =>
    intro h hr
    have hp : 0 < bits.length := List.length_pos.mpr hne
    by_cases h8 : bits.length ≤ 8
    · have h7 : bits.length < 8 := by omega
      have hd : bits.drop 8 = [] := List.drop_eq_nil_of_le (by omega)
      have ht : bits.take 8 = bits := List.take_of_length_le (by omega)
      rw [packBits_of_ne_nil bits hne, ht, hd, packBits_nil, List.getLast?_singleton]
      refine ⟨bitsToByte bits, rfl, ?_⟩
      have := bitsToByte_lt bits
      have hm : bits.length % 8 = bits.length := by omega
      rw [hm]
      exact this
    · have h9 : 8 ≤ bits.length := by omega
      have hd : bits.drop 8 ≠ [] := by
        apply List.ne_nil_of_length_pos
        simp only [List.length_drop]
        omega
      have hdr : (bits.drop 8).length % 8 ≠ 0 := by
        simp only [List.length_drop]
        omega
      obtain ⟨B, hB1, hB2⟩ := ih hd hdr
      have hpk : packBits (bits.drop 8) ≠ [] := by
        apply List.ne_nil_of_length_pos
        rw [packBits_length]
        simp only [List.length_drop]
        omega
      rw [packBits_of_ne_nil bits hne, getLast?_cons_of_ne_nil _ _ hpk, hB1]
      refine ⟨B, rfl, ?_⟩
      have : (bits.drop 8).length % 8 = bits.length % 8 := by
        simp only [List.length_drop]
        omega
      rw [this] at hB2
      exact hB2

/-! ## Concrete saturation runs -/

theorem altPairs_append (m n : Nat) : altPairs (m + n) = altPairs m ++ altPairs n := by
  induction m with
  | zero => simp [altPairs]
  | succ m ih =>
    rw [Nat.succ_add]
    simp [altPairs, ih]

theorem encoderBits_snd_append (xs ys : List Int) (s : DfpwmState) :
    (encoderBits s (xs ++ ys)).2 = (encoderBits (encoderBits s xs).2 ys).2 := by
  rw [encoderBits_append]

set_option maxRecDepth 40000 in
theorem climb_chunk_1 :
    (encoderBits make_encoder (List.replicate 50 (127 : Int))).2 = ⟨122, 49, true⟩ := by
  decide

set_option maxRecDepth 40000 in
theorem climb_chunk_2 :
    (encoderBits ⟨122, 49, true⟩ (List.replicate 50 (127 : Int))).2 = ⟨125, 99, true⟩ := by
  decide

set_option maxRecDepth 40000 in
theorem climb_chunk_3 :
    (encoderBits ⟨125, 99, true⟩ (List.replicate 50 (127 : Int))).2 = ⟨126, 149, true⟩ := by
  decide

set_option maxRecDepth 40000 in
theorem climb_chunk_4 :
    (encoderBits ⟨126, 149, true⟩ (List.replicate 50 (127 : Int))).2 = ⟨126, 199, true⟩ := by
  decide

set_option maxRecDepth 40000 in
theorem climb_chunk_5 :
    (encoderBits ⟨126, 199, true⟩ (List.replicate 50 (127 : Int))).2 = ⟨126, 249, true⟩ := by
  decide

set_option maxRecDepth 40000 in
theorem climb_chunk_6 :
    (encoderBits ⟨126, 249, true⟩ (List.replicate 50 (127 : Int))).2 = ⟨126, 255, true⟩ := by
  decide

theorem climb_300 :
    (encoderBits make_encoder (List.replicate 300 (127 : Int))).2 = ⟨126, 255, true⟩ := by
  have h50 : (300 : Nat) = 50 + (50 + (50 + (50 + (50 + 50)))) := by norm_num
  rw [h50, List.replicate_add, encoderBits_snd_append, climb_chunk_1,
    List.replicate_add, encoderBits_snd_append, climb_chunk_2,
    List.replicate_add, encoderBits_snd_append, climb_chunk_3,
    List.replicate_add, encoderBits_snd_append, climb_chunk_4,
    List.replicate_add, encoderBits_snd_append, climb_chunk_5,
    climb_chunk_6]

set_option maxRecDepth 40000 in
theorem fall_chunk_1 :
    (encoderBits ⟨126, 255, true⟩ (altPairs 25)).2 = ⟨-88, 206, false⟩ := by
  decide

set_option maxRecDepth 40000 in
theorem fall_chunk_2 :
    (encoderBits ⟨-88, 206, false⟩ (altPairs 25)).2 = ⟨-58, 156, false⟩ := by
  decide

set_option maxRecDepth 40000 in
theorem fall_chunk_3 :
    (encoderBits ⟨-58, 156, false⟩ (altPairs 25)).2 = ⟨-35, 106, false⟩ := by
  decide

set_option maxRecDepth 40000 in
theorem fall_chunk_4 :
    (encoderBits ⟨-35, 106, false⟩ (altPairs 25)).2 = ⟨-18, 56, false⟩ := by
  decide

set_option maxRecDepth 40000 in
theorem fall_chunk_5 :
    (encoderBits ⟨-18, 56, false⟩ (altPairs 25)).2 = ⟨-10, 6, false⟩ := by
  decide

set_option maxRecDepth 40000 in
theorem fall_chunk_6 :
    (encoderBits ⟨-10, 6, false⟩ (altPairs 25)).2 = ⟨-10, 0, false⟩ := by
  decide

theorem fall_150 :
    (encoderBits ⟨126, 255, true⟩ (altPairs 150)).2 = ⟨-10, 0, false⟩ := by
  have h25 : (150 : Nat) = 25 + (25 + (25 + (25 + (25 + 25)))) := by norm_num
  rw [h25, altPairs_append, encoderBits_snd_append, fall_chunk_1,
    altPairs_append, encoderBits_snd_append, fall_chunk_2,
    altPairs_append, encoderBits_snd_append, fall_chunk_3,
    altPairs_append, encoderBits_snd_append, fall_chunk_4,
    altPairs_append, encoderBits_snd_append, fall_chunk_5,
    fall_chunk_6]

theorem ceiling_state_fixed :
    predictorStep ⟨126, 255, true⟩ (encodeBit ⟨126, 255, true⟩ 127) = ⟨126, 255, true⟩ := by
  decide

theorem encoderStates_const_of_fixed (s : DfpwmState) (x : Int)
    (hfp : predictorStep s (encodeBit s x) = s) (n : Nat) :
    encoderStates s (List.replicate n x) = List.replicate n s := by
  induction n with
  | zero => rfl
  | succ n ih => simp [List.replicate_succ, encoderStates, hfp, ih]

theorem hold_at_ceiling (m : Nat) :
    ∀ u ∈ encoderStates ⟨126, 255, true⟩ (List.replicate m (127 : Int)), u.strength = 255 := by
  intro u hu
  rw [encoderStates_const_of_fixed _ _ ceiling_state_fixed] at hu
  have := List.eq_of_mem_replicate hu
  rw [this]

theorem floor_pair_step_1 :
    predictorStep ⟨-10, 0, false⟩ (encodeBit ⟨-10, 0, false⟩ 127) = ⟨-10, 0, true⟩ := by
  decide

theorem floor_pair_step_2 :
    predictorStep ⟨-10, 0, true⟩ (encodeBit ⟨-10, 0, true⟩ (-128)) = ⟨-10, 0, false⟩ := by
  decide

theorem hold_at_floor (m : Nat) :
    ∀ u ∈ encoderStates ⟨-10, 0, false⟩ (altPairs m), u.strength = 0 := by
  induction m with
  | zero =>
    intro u hu
    simp [altPairs, encoderStates] at hu
  | succ m ih =>
    intro u hu
    simp only [altPairs, encoderStates, floor_pair_step_1, floor_pair_step_2,
      List.mem_cons] at hu
    rcases hu with h | h | h
    · rw [h]
    · rw [h]
    · exact ih u h

/-! ## Trajectory invariants -/

theorem encoderStates_strength_bounds (xs : List Int) (s : DfpwmState)
    (h1 : 0 ≤ s.strength) (h2 : s.strength ≤ 255) :
    ∀ u ∈ encoderStates s xs, 0 ≤ u.strength ∧ u.strength ≤ 255 := by
  induction xs generalizing s with
  | nil =>
    intro u hu
    simp [encoderStates] at hu
  | cons x xs ih =>
    intro u hu
    simp only [encoderStates, List.mem_cons] at hu
    have hs := predictorStep_strength_range s (encodeBit s x) h1 h2
    rcases hu with h | h
    · rw [h]; exact hs
    · exact ih _ hs.1 hs.2 u h

theorem decoderStates_strength_bounds (bs : List Bool) (s : DfpwmState)
    (h1 : 0 ≤ s.strength) (h2 : s.strength ≤ 255) :
    ∀ u ∈ decoderStates s bs, 0 ≤ u.strength ∧ u.strength ≤ 255 := by
  induction bs generalizing s with
  | nil =>
    intro u hu
    simp [decoderStates] at hu
  | cons b bs ih =>
    intro u hu
    simp only [decoderStates, List.mem_cons] at hu
    have hs := predictorStep_strength_range s b h1 h2
    rcases hu with h | h
    · rw [h]; exact hs
    · exact ih _ hs.1 hs.2 u h

theorem decoderStates_charge_range (bs : List Bool) (s : DfpwmState) :
    ∀ u ∈ decoderStates s bs, -128 ≤ u.charge ∧ u.charge ≤ 127 := by
  induction bs generalizing s with
  | nil =>
    intro u hu
    simp [decoderStates] at hu
  | cons b bs ih =>
    intro u hu
    simp only [decoderStates, List.mem_cons] at hu
    rcases hu with h | h
    · rw [h]; exact predictorStep_charge_range s b
    · exact ih _ u h

/-! ## Claim theorems -/

/-- C1 counterexample: for the 5-sample input `[0,0,0,0,0]` the decoder,
run on the encoder's output, emits 8 samples (one per bit of the padded
byte), so its output is not literally equal to the encoder's 5-element
internal charge sequence. -/
theorem decode_encode_not_literally_equal :
    (decoder_process make_decoder (encoder_process make_encoder [0, 0, 0, 0, 0]).1).1
      ≠ encoderCharges make_encoder [0, 0, 0, 0, 0] := by
  decide

/-- C1 (amended): a decoder started from the same initial state as the
encoder, run on the encoder's output bytes, reproduces the encoder's
internal charge trajectory sample-for-sample: its first `|xs|` emitted
samples equal the encoder's internal charge sequence exactly (the
remaining emitted samples come from the zero pad bits of a final partial
byte). -/
theorem decode_matches_encoder_charge_trajectory (s : DfpwmState) (xs : List Int) :
    ((decoder_process s (encoder_process s xs).1).1).take xs.length
      = encoderCharges s xs := by
  show ((decoderBits s (unpackBytes (packBits (encoderBits s xs).1))).1).take xs.length = _
  rw [unpackBytes_packBits, decoderBits_append, decoderBits_of_encoderBits]
  simp only
  have hlen : (encoderCharges s xs).length = xs.length := by
    simp [encoderCharges, encoderStates_length]
  rw [← hlen, List.take_left]

/-- C2 counterexample: splitting 16 zero samples at index 5 (not a
multiple of 8) yields 3 bytes across the two calls (the first call pads
its final partial byte) while the one-shot call yields 2 bytes, so the
outputs differ. -/
theorem encode_split_at_five_differs :
    ¬ ((encoder_process make_encoder (List.replicate 16 (0 : Int))).1 =
        (encoder_process make_encoder ((List.replicate 16 (0 : Int)).take 5)).1 ++
          (encoder_process
            (encoder_process make_encoder ((List.replicate 16 (0 : Int)).take 5)).2
            ((List.replicate 16 (0 : Int)).drop 5)).1) := by
  decide

/-- C2 (amended): encoding in one call equals encoding in two successive
calls against the same persisted state, byte-for-byte, whenever the
split index is a multiple of 8 (each call pads its own final partial
byte, so other boundaries change the byte stream); chunked decoding
against one persisted decoder state agrees with one-shot decoding at
every byte boundary. -/
theorem chunked_calls_match_one_shot :
    (∀ (s : DfpwmState) (xs : List Int) (i : Nat), i % 8 = 0 →
        (encoder_process s xs).1 =
          (encoder_process s (xs.take i)).1 ++
            (encoder_process (encoder_process s (xs.take i)).2 (xs.drop i)).1)
    ∧ (∀ (s : DfpwmState) (data : List Nat) (i : Nat),
        (decoder_process s data).1 =
          (decoder_process s (data.take i)).1 ++
            (decoder_process (decoder_process s (data.take i)).2 (data.drop i)).1) := by
  constructor
  · intro s xs i hi
    by_cases hle : i ≤ xs.length
    · conv_lhs => rw [← List.take_append_drop i xs]
      simp only [encoder_process]
      rw [encoderBits_append]
      simp only
      apply packBits_append
      rw [encoderBits_length, List.length_take]
      have : min i xs.length = i := by omega
      rw [this]
      exact hi
    · have ht : xs.take i = xs := List.take_of_length_le (by omega)
      have hd : xs.drop i = [] := List.drop_eq_nil_of_le (by omega)
      rw [ht, hd]
      simp only [encoder_process, encoderBits]
      rw [packBits_nil, List.append_nil]
  · intro s data i
    conv_lhs => rw [← List.take_append_drop i data]
    simp only [decoder_process]
    rw [unpackBytes_append, decoderBits_append]

/-- C2 witness: a concrete multiple-of-8 split of the encoder input and
a concrete decoder split. -/
theorem chunked_calls_match_one_shot_witness :
    (encoder_process make_encoder (List.replicate 16 (0 : Int))).1 =
      (encoder_process make_encoder ((List.replicate 16 (0 : Int)).take 8)).1 ++
        (encoder_process
          (encoder_process make_encoder ((List.replicate 16 (0 : Int)).take 8)).2
          ((List.replicate 16 (0 : Int)).drop 8)).1 :=
  chunked_calls_match_one_shot.1 make_encoder (List.replicate 16 0) 8 (by decide)

/-- C3: decoding is deterministic: two separately-created fresh decoder
states, run on the same byte string, produce identical results; the
output depends only on the input bytes and the initial state. -/
theorem decoder_deterministic (d1 d2 : DfpwmState)
    (h1 : d1 = make_decoder) (h2 : d2 = make_decoder) (data : List Nat) :
    decoder_process d1 data = decoder_process d2 data := by
  rw [h1, h2]

/-- C3 witness: the determinism theorem applied to a concrete byte
string. -/
theorem decoder_deterministic_witness :
    decoder_process make_decoder [102, 200] = decoder_process make_decoder [102, 200] :=
  decoder_deterministic make_decoder make_decoder rfl rfl [102, 200]

/-- C4: the one-shot convenience wrappers equal one application of a
freshly-created streaming instance. -/
theorem one_shot_wrappers_use_fresh_state :
    (∀ input : List Int, encode input = (encoder_process make_encoder input).1)
    ∧ (∀ input : List Nat, decode input = (decoder_process make_decoder input).1) :=
  ⟨fun _ => rfl, fun _ => rfl⟩

/-- C5: one encoder call returns exactly `ceil(|xs| / 8)` bytes, and when
`|xs|` is not a multiple of 8 the unused high bit positions of the final
partial byte are zero. -/
theorem encoder_output_length_and_padding (s : DfpwmState) (xs : List Int) :
    (encoder_process s xs).1.length = (xs.length + 7) / 8
    ∧ (xs.length % 8 ≠ 0 →
        ∃ B, (encoder_process s xs).1.getLast? = some B
          ∧ ∀ k, xs.length % 8 ≤ k → B.testBit k = false) := by
  constructor
  · show (packBits (encoderBits s xs).1).length = _
    rw [packBits_length, encoderBits_length]
  · intro hr
    have hne : (encoderBits s xs).1 ≠ [] := by
      apply List.ne_nil_of_length_pos
      rw [encoderBits_length]
      omega
    obtain ⟨B, h1, h2⟩ := packBits_getLast? (encoderBits s xs).1 hne
      (by rw [encoderBits_length]; exact hr)
    refine ⟨B, h1, ?_⟩
    intro k hk
    apply Nat.testBit_lt_two_pow
    calc B < 2 ^ ((encoderBits s xs).1.length % 8) := h2
    _ ≤ 2 ^ k := by
      apply Nat.pow_le_pow_right (by norm_num)
      rw [encoderBits_length]
      exact hk

/-- C5 witness: encoding 5 samples yields exactly 1 byte whose 3 unused
high bit positions are zero. -/
theorem encoder_output_length_and_padding_witness :
    (encoder_process make_encoder [0, 0, 0, 0, 0]).1.length
        = (([0, 0, 0, 0, 0] : List Int).length + 7) / 8
    ∧ ∃ B, (encoder_process make_encoder [0, 0, 0, 0, 0]).1.getLast? = some B
        ∧ ∀ k, ([0, 0, 0, 0, 0] : List Int).length % 8 ≤ k → B.testBit k = false :=
  ⟨(encoder_output_length_and_padding make_encoder [0, 0, 0, 0, 0]).1,
   (encoder_output_length_and_padding make_encoder [0, 0, 0, 0, 0]).2 (by decide)⟩

/-- C6: packing and unpacking are LSB-first: bit position `k` of wire
byte `j` holds the bit the encoder computed for sample `8 j + k`; the
decoder consumes exactly the LSB-first bit stream of its input bytes,
and position `k` of a byte's bit list is `Nat.testBit` at `k`. -/
theorem bit_packing_lsb_first :
    (∀ (s : DfpwmState) (xs : List Int) (j k : Nat), k < 8 → 8 * j + k < xs.length →
        Nat.testBit ((encoder_process s xs).1.getD j 0) k
          = (encoderBits s xs).1.getD (8 * j + k) false)
    ∧ (∀ (s : DfpwmState) (data : List Nat),
        decoder_process s data = decoderBits s (unpackBytes data))
    ∧ (∀ (b k : Nat), k < 8 → (byteToBits b).getD k false = b.testBit k) := by
  refine ⟨?_, fun s data => rfl, fun b k hk => getD_byteToBits b k hk⟩
  intro s xs j k hk hjk
  show Nat.testBit ((packBits (encoderBits s xs).1).getD j 0) k = _
  rw [packBits_getD]
  have htake_len : (((encoderBits s xs).1.drop (8 * j)).take 8).length ≤ 8 := by
    simp [List.length_take]
  rw [testBit_bitsToByte _ htake_len k hk]
  rw [List.getD_eq_getElem?_getD, List.getD_eq_getElem?_getD]
  rw [List.getElem?_take, if_pos hk, List.getElem?_drop]

/-- C6 witness: for a 9-sample input, bit 0 of the second output byte is
the bit computed for the ninth sample. -/
theorem bit_packing_lsb_first_witness :
    Nat.testBit ((encoder_process make_encoder [0, 0, 0, 0, 0, 0, 0, 0, 0]).1.getD 1 0) 0
      = (encoderBits make_encoder [0, 0, 0, 0, 0, 0, 0, 0, 0]).1.getD (8 * 1 + 0) false :=
  bit_packing_lsb_first.1 make_encoder [0, 0, 0, 0, 0, 0, 0, 0, 0] 1 0 (by decide) (by decide)

/-- C7: one decoder call on a byte string `data`, from any decoder
state, emits exactly `8 * |data|` samples: one reconstructed sample per
input bit, padding bits included. -/
theorem decoder_emits_one_sample_per_bit (s : DfpwmState) (data : List Nat) :
    (decoder_process s data).1.length = 8 * data.length := by
  show (decoderBits s (unpackBytes data)).1.length = _
  rw [decoderBits_length, unpackBytes_length]

theorem encoder_process_snd (s : DfpwmState) (xs : List Int) :
    (encoder_process s xs).2 = (encoderBits s xs).2 := rfl

/-- C8: `strength` stays within its floor `0` and ceiling `255` after
every processed sample or bit; a 300-sample run of constant `+127`
drives it to the ceiling, where it holds for any continuation of the
run, and a subsequent 300-sample alternating `+127 / -128` run drives it
to the floor, where it holds for any continuation. -/
theorem strength_bounded_and_saturates :
    (∀ (s : DfpwmState) (b : Bool), 0 ≤ s.strength → s.strength ≤ 255 →
        0 ≤ (predictorStep s b).strength ∧ (predictorStep s b).strength ≤ 255)
    ∧ (∀ (s : DfpwmState) (xs : List Int), 0 ≤ s.strength → s.strength ≤ 255 →
        ∀ u ∈ encoderStates s xs, 0 ≤ u.strength ∧ u.strength ≤ 255)
    ∧ (∀ (s : DfpwmState) (bs : List Bool), 0 ≤ s.strength → s.strength ≤ 255 →
        ∀ u ∈ decoderStates s bs, 0 ≤ u.strength ∧ u.strength ≤ 255)
    ∧ ((encoder_process make_encoder (List.replicate 300 (127 : Int))).2.strength = 255
        ∧ ∀ m, ∀ u ∈ encoderStates
            (encoder_process make_encoder (List.replicate 300 (127 : Int))).2
            (List.replicate m (127 : Int)), u.strength = 255)
    ∧ ((encoder_process make_encoder
          (List.replicate 300 (127 : Int) ++ altPairs 150)).2.strength = 0
        ∧ ∀ m, ∀ u ∈ encoderStates
            (encoder_process make_encoder
              (List.replicate 300 (127 : Int) ++ altPairs 150)).2
            (altPairs m), u.strength = 0) := by
  refine ⟨fun s b => predictorStep_strength_range s b,
    fun s xs h1 h2 => encoderStates_strength_bounds xs s h1 h2,
    fun s bs h1 h2 => decoderStates_strength_bounds bs s h1 h2, ⟨?_, ?_⟩, ⟨?_, ?_⟩⟩
  · rw [encoder_process_snd, climb_300]
  · intro m
    rw [encoder_process_snd, climb_300]
    exact hold_at_ceiling m
  · rw [encoder_process_snd, encoderBits_snd_append, climb_300, fall_150]
  · intro m
    rw [encoder_process_snd, encoderBits_snd_append, climb_300, fall_150]
    exact hold_at_floor m

/-- C8 witness: the per-step strength bound applied at a fresh encoder
state and a set bit. -/
theorem strength_bounded_and_saturates_witness :
    0 ≤ (predictorStep make_encoder true).strength
    ∧ (predictorStep make_encoder true).strength ≤ 255 :=
  strength_bounded_and_saturates.1 make_encoder true (by decide) (by decide)

/-- C9: the charge update never overshoots past the bit's target (the
new charge lies between the previous charge and the target, inclusive),
clamping keeps every updated charge inside `[-128, 127]`, and therefore
every sample a decoder call emits lies in `[-128, 127]`. -/
theorem charge_no_overshoot_and_clamped :
    (∀ (s : DfpwmState) (b : Bool),
        -128 ≤ s.charge → s.charge ≤ 127 → 0 ≤ s.strength → s.strength ≤ 255 →
          min s.charge (bitTarget b) ≤ (predictorStep s b).charge
          ∧ (predictorStep s b).charge ≤ max s.charge (bitTarget b))
    ∧ (∀ (s : DfpwmState) (b : Bool),
        -128 ≤ (predictorStep s b).charge ∧ (predictorStep s b).charge ≤ 127)
    ∧ (∀ (s : DfpwmState) (data : List Nat),
        ∀ y ∈ (decoder_process s data).1, -128 ≤ y ∧ y ≤ 127) := by
  refine ⟨fun s b hc1 hc2 hs1 hs2 => predictorStep_charge_between s b hc1 hc2 hs1 hs2,
    fun s b => predictorStep_charge_range s b, ?_⟩
  intro s data y hy
  have hmap : (decoder_process s data).1
      = (decoderStates s (unpackBytes data)).map DfpwmState.charge :=
    decoderBits_fst_eq_map_charge (unpackBytes data) s
  rw [hmap] at hy
  obtain ⟨u, hu, rfl⟩ := List.mem_map.mp hy
  exact decoderStates_charge_range (unpackBytes data) s u hu

/-- C9 witness: the no-overshoot bound applied at a fresh decoder state
and a set bit. -/
theorem charge_no_overshoot_and_clamped_witness :
    min make_decoder.charge (bitTarget true) ≤ (predictorStep make_decoder true).charge
    ∧ (predictorStep make_decoder true).charge ≤ max make_decoder.charge (bitTarget true) :=
  charge_no_overshoot_and_clamped.1 make_decoder true (by decide) (by decide)
    (by decide) (by decide)

/-- C10: an empty call is a complete no-op: it returns an empty output,
leaves the state object (charge, strength, previousBit) unchanged, and
all subsequent calls behave as if the empty call had never happened. -/
theorem empty_call_is_noop :
    (∀ s : DfpwmState, encoder_process s [] = ([], s))
    ∧ (∀ s : DfpwmState, decoder_process s [] = ([], s))
    ∧ (∀ (s : DfpwmState) (xs : List Int),
        encoder_process (encoder_process s []).2 xs = encoder_process s xs)
    ∧ (∀ (s : DfpwmState) (data : List Nat),
        decoder_process (decoder_process s []).2 data = decoder_process s data) :=
  ⟨fun _ => rfl, fun _ => rfl, fun _ _ => rfl, fun _ _ => rfl⟩
